import Mathlib

/-!
Verification of the us2cursor utility layer (line-diff extraction, review-table
parsing, PR-comment extraction, work-item field extraction, LLM-output
validation and compilation control flow) against its natural-language
specification.  JavaScript strings are modelled as lists of characters
(`JStr`); JavaScript `undefined`/`null` values are modelled with `Option`;
the few regular expressions appearing in the source are modelled by
specialised total matchers whose backtracking behaviour coincides with the
JavaScript engine on those patterns (each matcher carries a comment relating
it to the regex literal it embeds).
-/

set_option maxRecDepth 10000

/-- JavaScript strings, modelled as lists of unicode characters. -/
abbrev JStr := List Char

/-- Characters of a Lean string literal, used to write concrete `JStr` values. -/
def chars (s : String) : JStr := s.data

/-- The JavaScript `\s` character class (also the set trimmed by `String.trim`):
whitespace, line terminators and the BOM. -/
def jsWhitespace (c : Char) : Bool :=
  c = ' ' || c = '\t' || c = '\n' || c = '\r' ||
  c = Char.ofNat 0x0b || c = Char.ofNat 0x0c || c = Char.ofNat 0xa0 ||
  c = Char.ofNat 0x1680 ||
  (Char.ofNat 0x2000 ≤ c && c ≤ Char.ofNat 0x200a) ||
  c = Char.ofNat 0x2028 || c = Char.ofNat 0x2029 || c = Char.ofNat 0x202f ||
  c = Char.ofNat 0x205f || c = Char.ofNat 0x3000 || c = Char.ofNat 0xfeff

/-- JavaScript `String.prototype.trim`: drop `\s`-class characters from both ends. -/
def jsTrim (s : JStr) : JStr :=
  ((s.dropWhile jsWhitespace).reverse.dropWhile jsWhitespace).reverse

/-- JavaScript `s.split(sep)` for a single-character separator:
`"".split` gives `[""]`, and separators at the ends give empty fields. -/
def jsSplitOn (sep : Char) : JStr → List JStr
  | [] => [[]]
  | c :: rest =>
    let r := jsSplitOn sep rest
    if c = sep then [] :: r
    else
      match r with
      | [] => [[c]]
      | h :: t => (c :: h) :: t

/-- JavaScript `parts.join(sep)` for a single-character separator. -/
def jsJoin (sep : Char) : List JStr → JStr
  | [] => []
  | [p] => p
  | p :: rest => p ++ sep :: jsJoin sep rest

/-- Decimal digit character, as produced by JavaScript number-to-string coercion. -/
def digitChar (d : Nat) : Char :=
  match d with
  | 0 => '0' | 1 => '1' | 2 => '2' | 3 => '3' | 4 => '4'
  | 5 => '5' | 6 => '6' | 7 => '7' | 8 => '8' | _ => '9'

/-- Decimal rendering of a natural number, fuel-based so that it reduces in the
kernel; `n + 1` units of fuel always suffice since `n / 10 < n`. -/
def natCharsCore : Nat → Nat → JStr
  | 0, _ => []
  | fuel + 1, n =>
    if n < 10 then [digitChar n]
    else natCharsCore fuel (n / 10) ++ [digitChar (n % 10)]

/-- Decimal rendering of a natural number (JavaScript template `${n}`). -/
def natChars (n : Nat) : JStr := natCharsCore (n + 1) n

/-- JavaScript `s.includes(sub)`: substring containment. -/
def jsIncludes (s sub : JStr) : Bool :=
  (List.range (s.length + 1)).any fun i => sub.isPrefixOf (s.drop i)

/-- JavaScript `s.endsWith(c)` for a one-character suffix. -/
def jsEndsWith (s : JStr) (c : Char) : Bool :=
  s.getLast? = some c

/-! ## Line-diff extractor (`extractChangedLines`, lib/review.js)

The source compares `oldLines[i] !== newLines[i]`: an out-of-bounds index
yields `undefined`, so the comparison is modelled on `List.get?` values. -/

/-- `oldLines[i] !== newLines[i]` in the source: the contents differ at index
`i` (an index past the end of an array reads as `undefined`). -/
def differsAt (oldL newL : List JStr) (i : Nat) : Bool :=
  oldL.get? i ≠ newL.get? i

/-- Membership in the `changedLineNumbers` set built by the source: an index is
marked when it differs, or when it lies in the context window
`[j - maxContext, min(newLines.length - 1, j + maxContext)]` of a differing
index `j`. -/
def isMarked (oldL newL : List JStr) (k : Nat) (i : Nat) : Bool :=
  differsAt oldL newL i ||
    (List.range (max oldL.length newL.length)).any fun j =>
      differsAt oldL newL j && decide (j - k ≤ i) && decide (i ≤ j + k) &&
        decide (i < newL.length)

/-- `Array.from(changedLineNumbers).sort((a, b) => a - b)`: the ascending
enumeration of the marked indices (every marked index is below
`max oldL.length newL.length`). -/
def sortedMarked (oldL newL : List JStr) (k : Nat) : List Nat :=
  (List.range (max oldL.length newL.length)).filter (isMarked oldL newL k)

/-- One rendered diff line: `+`/space prefix, 1-based line number, `|`, and the
content (`newLines[lineNum] || ''`). -/
def renderLine (oldL newL : List JStr) (i : Nat) : JStr :=
  (if differsAt oldL newL i then '+' else ' ') :: natChars (i + 1) ++ '|' :: newL.getD i []

/-- The render loop of the source: walk the sorted marked indices, pushing a
`...` separator before a non-adjacent index once at least one line has been
emitted (`lastLine` starts at `-10`). -/
def renderEntriesAux (oldL newL : List JStr) :
    List Nat → Int → Bool → List JStr
  | [], _, _ => []
  | n :: rest, lastLine, nonempty =>
    (if (n : Int) > lastLine + 1 && nonempty then [chars "..."] else []) ++
      renderLine oldL newL n :: renderEntriesAux oldL newL rest (n : Int) true

/-- The full `changes` array before the `slice(0, 100)` cap. -/
def renderEntries (oldL newL : List JStr) (k : Nat) : List JStr :=
  renderEntriesAux oldL newL (sortedMarked oldL newL k) (-10) false

/-- The new-file rendering `lines.map((l, i) => `+${i + 1}|${l}`)`, with `i`
starting at the given offset. -/
def renderNewAux (i : Nat) : List JStr → List JStr
  | [] => []
  | l :: ls => ('+' :: natChars (i + 1) ++ '|' :: l) :: renderNewAux (i + 1) ls

/-- `extractChangedLines(oldContent, newContent, maxContext)` from
lib/review.js (also duplicated in prreview.js).  `!oldContent` is true both
for a missing (`null`) old revision and for an empty-string one, so both take
the new-file branch. -/
def extractChangedLines (oldContent : Option JStr) (newContent : JStr)
    (k : Nat) : JStr :=
  match oldContent with
  | none => jsJoin '\n' (renderNewAux 0 ((jsSplitOn '\n' newContent).take 150))
  | some o =>
    if o = [] then
      jsJoin '\n' (renderNewAux 0 ((jsSplitOn '\n' newContent).take 150))
    else
      jsJoin '\n'
        ((renderEntries (jsSplitOn '\n' o) (jsSplitOn '\n' newContent) k).take 100)

/-- Concrete 101-line revisions used to exhibit the 100-line output cap. -/
def c1OldText : JStr := jsJoin '\n' (List.replicate 101 ['a'])

/-- Concrete 101-line new revision, differing from `c1OldText` on every line. -/
def c1NewText : JStr := jsJoin '\n' (List.replicate 101 ['b'])

/-! ## PR comment extractors (`extractPendingComments`, lib/review.js and
prfix.js)

Thread status values arrive from the API either as strings or as numeric
codes; a JavaScript value of either type is modelled by `JStatus`
(`undef` stands for a missing status field).  Optional chaining
`threadContext?.rightFileStart?.line` is collapsed to a single optional
integer per side. -/

/-- A thread status value: a string, a number, or absent. -/
inductive JStatus where
  | sstr : JStr → JStatus
  | snum : Int → JStatus
  | undef : JStatus
deriving DecidableEq

/-- One comment of a discussion thread (`content` is `none` for a
null/absent content field; the empty string is a separate falsy value). -/
structure PRComment where
  content : Option JStr
  commentType : Option JStr
deriving DecidableEq

/-- The file/line anchor of a thread (`rightLine` models
`threadContext?.rightFileStart?.line`, `leftLine` the left-side field). -/
structure ThreadCtx where
  filePath : Option JStr
  rightLine : Option Int
  leftLine : Option Int
deriving DecidableEq

/-- One discussion thread. -/
structure PRThread where
  isDeleted : Bool
  status : JStatus
  threadContext : Option ThreadCtx
  comments : List PRComment
deriving DecidableEq

/-- One extracted pending comment. -/
structure PendingComment where
  file : Option JStr
  line : Option Int
  comment : JStr
deriving DecidableEq

/-- JavaScript `a || b` on optional numbers: `0` (and a missing value) falls
through to the right operand. -/
def jsOrLine : Option Int → Option Int → Option Int
  | some v, b => if v = 0 then b else some v
  | none, b => b

/-- `threadContext?.filePath || null`: an absent context, an absent path and an
empty path all give `null`. -/
def threadFile (t : PRThread) : Option JStr :=
  match t.threadContext with
  | none => none
  | some tc =>
    match tc.filePath with
    | none => none
    | some f => if f = [] then none else some f

/-- `threadContext?.rightFileStart?.line || threadContext?.leftFileStart?.line
|| null` with JavaScript truthiness (a line number `0` is falsy). -/
def threadLine (t : PRThread) : Option Int :=
  match t.threadContext with
  | none => none
  | some tc => jsOrLine tc.rightLine (jsOrLine tc.leftLine none)

/-- `comment.content` is truthy: present and nonempty. -/
def contentTruthy : Option JStr → Bool
  | none => false
  | some s => s ≠ []

/-- `content.replace(/\n/g, ' ').trim()`: newlines become spaces, then trim. -/
def normalizeComment (s : JStr) : JStr :=
  jsTrim (s.map fun c => if c = '\n' then ' ' else c)

/-- The inner comment loop shared by both extractor variants: skip
system-generated comments and comments without truthy content, emit the rest
with the thread's file and line. -/
def emitComments (file : Option JStr) (line : Option Int) :
    List PRComment → List PendingComment
  | [] => []
  | c :: cs =>
    if c.commentType = some (chars "system") then emitComments file line cs
    else if contentTruthy c.content then
      { file := file, line := line,
        comment := normalizeComment (c.content.getD []) } :: emitComments file line cs
    else emitComments file line cs

/-- The lib/review.js variant: keep a thread only when its status is the
string `'active'` or the numeric code `1` (after dropping deleted threads). -/
def extractPendingCommentsActive : List PRThread → List PendingComment
  | [] => []
  | t :: ts =>
    (if t.isDeleted then []
     else if t.status = JStatus.sstr (chars "active") || t.status = JStatus.snum 1 then
       emitComments (threadFile t) (threadLine t) t.comments
     else []) ++ extractPendingCommentsActive ts

/-- The prfix.js variant: drop a thread only when its status is the string
`'fixed'` or `'closed'` (after dropping deleted threads). -/
def extractPendingCommentsNotFixed : List PRThread → List PendingComment
  | [] => []
  | t :: ts =>
    (if t.isDeleted then []
     else if t.status = JStatus.sstr (chars "fixed") ||
        t.status = JStatus.sstr (chars "closed") then []
     else emitComments (threadFile t) (threadLine t) t.comments) ++
      extractPendingCommentsNotFixed ts

/-- Concrete thread whose right-side line number is `0` and left-side is `5`:
JavaScript `||` treats `0` as falsy, so the extractor falls back to the
left-side value. -/
def c4Thread : PRThread :=
  { isDeleted := false
    status := JStatus.sstr (chars "active")
    threadContext := some { filePath := none, rightLine := some 0, leftLine := some 5 }
    comments := [{ content := some (chars "hi"), commentType := some (chars "text") }] }

/-- Concrete deleted thread used by the C4 witness. -/
def c4DeletedThread : PRThread :=
  { isDeleted := true
    status := JStatus.sstr (chars "active")
    threadContext := none
    comments := [{ content := some (chars "x"), commentType := some (chars "text") }] }

/-- Concrete thread with a nonzero right-side line, used by the C4 witness. -/
def c4RightThread : PRThread :=
  { isDeleted := false
    status := JStatus.snum 1
    threadContext := some { filePath := none, rightLine := some 7, leftLine := none }
    comments := [] }

/-- Concrete thread with the unrecognised status `'pending'`, on which the two
extractor variants disagree. -/
def c5PendingThread : PRThread :=
  { isDeleted := false
    status := JStatus.sstr (chars "pending")
    threadContext := none
    comments := [{ content := some (chars "x"), commentType := some (chars "text") }] }

/-! ## HTML stripping and work-item field extraction (lib/html.js,
lib/azure.js, us2f.js)

`replace(/<[^>]*>/g, r)` and `replace(/\s+/g, ' ')` / `replace(/\n+/g, '\n')`
are single-pass left-to-right scans; both patterns are deterministic (no
backtracking can alter a match: `>` is not in `[^>]`, and the run classes are
disjoint from what follows them), so they are modelled by direct fuel-based
scanners.  The fuel is the input length, which each step strictly consumes. -/

/-- `replace(/<[^>]*>/g, repl)`: at `<`, consume up to the next `>` and emit
the replacement; a `<` with no later `>` never matches and is copied
through. -/
def stripTagsCore (repl : Char) : Nat → JStr → JStr
  | 0, _ => []
  | _, [] => []
  | fuel + 1, c :: rest =>
    if c = '<' then
      let inner := rest.takeWhile (· ≠ '>')
      if inner.length < rest.length then
        repl :: stripTagsCore repl fuel (rest.drop (inner.length + 1))
      else c :: stripTagsCore repl fuel rest
    else c :: stripTagsCore repl fuel rest

/-- `replace(/<[^>]*>/g, repl)` on a whole string. -/
def stripTags (repl : Char) (s : JStr) : JStr := stripTagsCore repl s.length s

/-- `replace(/P+/g, r)` for a character class `P`: collapse every maximal
nonempty run of `P`-characters to the single character `r`. -/
def collapseRunsCore (p : Char → Bool) (r : Char) : Nat → JStr → JStr
  | 0, _ => []
  | _, [] => []
  | fuel + 1, c :: rest =>
    if p c then r :: collapseRunsCore p r fuel (rest.dropWhile p)
    else c :: collapseRunsCore p r fuel rest

/-- `replace(/P+/g, r)` on a whole string. -/
def collapseRuns (p : Char → Bool) (r : Char) (s : JStr) : JStr :=
  collapseRunsCore p r s.length s

/-- `stripHtmlToText` from lib/html.js: tags to spaces, whitespace runs to a
single space, trimmed; the empty (falsy) input short-circuits to `''`. -/
def stripHtmlToText (html : JStr) : JStr :=
  if html = [] then []
  else jsTrim (collapseRuns jsWhitespace ' ' (stripTags ' ' html))

/-- `stripHtmlToLines` from lib/html.js: tags to newlines, newline runs to a
single newline, trimmed; the empty (falsy) input short-circuits to `''`. -/
def stripHtmlToLines (html : JStr) : JStr :=
  if html = [] then []
  else jsTrim (collapseRuns (fun c => c = '\n') '\n' (stripTags '\n' html))

/-- A raw tracker work item: an id and an optional map of named fields
(`none` models a record with no `fields` object at all). -/
structure WorkItemRaw where
  id : Int
  fields : Option (List (JStr × JStr))
deriving DecidableEq

/-- The flat projection produced by the field extractors. -/
structure WorkItemFields where
  id : Int
  title : JStr
  description : JStr
  acceptanceCriteria : JStr
deriving DecidableEq

/-- JavaScript property read `f[key]` on an object modelled as an
association list. -/
def jsLookup (m : List (JStr × JStr)) (key : JStr) : Option JStr :=
  (m.find? fun p => p.1 = key).map (fun p => p.2)

/-- `extractFields` from lib/azure.js: `workItem.fields || {}` defaults an
absent map to the empty object, each projection defaulting to `''`. -/
def extractFieldsAzure (w : WorkItemRaw) : WorkItemFields :=
  let f := w.fields.getD []
  { id := w.id
    title := (jsLookup f (chars "System.Title")).getD []
    description := stripHtmlToText ((jsLookup f (chars "System.Description")).getD [])
    acceptanceCriteria :=
      stripHtmlToLines
        ((jsLookup f (chars "Microsoft.VSTS.Common.AcceptanceCriteria")).getD []) }

/-- `extractFields` from us2f.js: `const f = workItem.fields` with NO default,
so reading a property of an absent map throws a TypeError — modelled as
`none`.  The projections inline the same strip/collapse/trim pipeline. -/
def extractFieldsUs2f (w : WorkItemRaw) : Option WorkItemFields :=
  match w.fields with
  | none => none
  | some f => some
    { id := w.id
      title := (jsLookup f (chars "System.Title")).getD []
      description :=
        jsTrim (collapseRuns jsWhitespace ' '
          (stripTags ' ' ((jsLookup f (chars "System.Description")).getD [])))
      acceptanceCriteria :=
        jsTrim (collapseRuns (fun c => c = '\n')  '\n'
          (stripTags '\n'
            ((jsLookup f (chars "Microsoft.VSTS.Common.AcceptanceCriteria")).getD []))) }

/-! ## Backend output validation (`validateBackendOutput`, lib/validator.js) -/

/-- The JavaScript `\w` class: ASCII letters, digits, underscore. -/
def isWordChar (c : Char) : Bool :=
  ('a' ≤ c && c ≤ 'z') || ('A' ≤ c && c ≤ 'Z') || ('0' ≤ c && c ≤ '9') || c = '_'

/-- JavaScript line terminators, the positions accepted by a multiline `$`. -/
def isLineTerminator (c : Char) : Bool :=
  c = '\n' || c = '\r' || c = Char.ofNat 0x2028 || c = Char.ofNat 0x2029

/-- A match of `record \w+\([^)]*$` (with the `m` flag) anchored at the start
of `s`: the literal `record `, a nonempty word run, `(`, then some run of
non-`)` characters ending at a line end.  `[^)]*` can cross a line terminator
(it is not excluded from the class), so the `$` succeeds exactly when a line
terminator occurs before the first `)` or no `)` follows at all. -/
def recordOpenParenAt (s : JStr) : Bool :=
  if (chars "record ").isPrefixOf s then
    let t := s.drop 7
    let w := t.takeWhile isWordChar
    if w = [] then false
    else
      match t.drop w.length with
      | '(' :: u =>
        let run := u.takeWhile fun c => c ≠ ')'
        run.any isLineTerminator || run.length = u.length
      | _ => false
  else false

/-- `text.match(/record \w+\([^)]*$/gm) !== null`: some suffix of the text
starts a match. -/
def hasIncompleteRecord : JStr → Bool
  | [] => false
  | c :: rest => recordOpenParenAt (c :: rest) || hasIncompleteRecord rest

/-- `isValid`/`issues` pair returned by the validators. -/
structure ValidationResult where
  isValid : Bool
  issues : List JStr
deriving DecidableEq

/-- The issue list built by `validateBackendOutput`, in source push order. -/
def backendIssues (t : JStr) : List JStr :=
  (if jsIncludes t (chars "Mutation:") then []
   else [chars "Missing \"Mutation:\" section"]) ++
  (if jsIncludes t (chars "- Name:") then []
   else [chars "Missing \"- Name:\" in Mutation"]) ++
  (if jsIncludes t (chars "- Input:") then []
   else [chars "Missing \"- Input:\" in Mutation"]) ++
  (if jsIncludes t (chars "- Returns:") then []
   else [chars "Missing \"- Returns:\" in Mutation"]) ++
  (if jsIncludes t (chars "Behavior:") then []
   else [chars "Missing \"Behavior:\" section"]) ++
  (if jsIncludes t (chars "Rules:") then []
   else [chars "Missing \"Rules:\" section"]) ++
  (if jsIncludes t (chars "AC:") then []
   else [chars "Missing \"AC:\" section"]) ++
  (if jsEndsWith t '-' || jsEndsWith t ':' || jsEndsWith t ',' then
    [chars "Output appears to be truncated"]
   else []) ++
  (if hasIncompleteRecord t then
    [chars "Incomplete record (missing closing parenthesis)"]
   else [])

/-- `validateBackendOutput` from lib/validator.js:
`{ isValid: issues.length === 0, issues }`. -/
def validateBackendOutput (t : JStr) : ValidationResult :=
  { isValid := (backendIssues t).length == 0, issues := backendIssues t }

/-- The spec's notion of the last non-whitespace character of a text; the
claim states truncation detection in terms of it, while the code checks the
literal last character. -/
def lastNonWsChar (t : JStr) : Option Char :=
  (t.reverse.dropWhile jsWhitespace).head?

/-! ## Review-table parser (`parseReviewIssues`, lib/review.js)

The row regex is

  `\|\s*(SEV)\s*\|\s*(\w+)\s*\|\s*([^\|]+\.(?:cs|js|ts|tsx|jsx|py|java|go))\s*\|\s*(\d+)\s*\|\s*([^|]+)\|\s*([^|]+)\|`

None of the classes and captures in it can contain `|`, so the seven literal
`\|` of the pattern must match the first seven `|` characters from the match
start, whatever the backtracking does; the matcher below therefore splits the
candidate row into its between-pipe segments and matches each segment
separately.  Inside a segment, `\s*` next to a class disjoint from whitespace
is deterministic; only the filename segment needs real backtracking (longest
leading whitespace run first, then longest `[^|]+` body first, then the
extension alternation in source order), which `matchFileSegment` implements
in exactly that priority order. -/

/-- The JavaScript `\d` class. -/
def isDigitChar (c : Char) : Bool := '0' ≤ c && c ≤ '9'

/-- The recognised source-file extensions, in the alternation order of the
regex. -/
def reviewExtensions : List JStr :=
  [chars "cs", chars "js", chars "ts", chars "tsx", chars "jsx",
   chars "py", chars "java", chars "go"]

/-- The three severity literals, in alternation order. -/
def severityLiterals : List JStr :=
  [chars "🔴 CRITICAL", chars "🟡 IMPORTANT", chars "🔵 MINOR"]

/-- Split off the segment up to the next `|`, which must exist; returns the
segment and the remainder after that `|`. -/
def takeSeg (s : JStr) : Option (JStr × JStr) :=
  let seg := s.takeWhile fun c => c ≠ '|'
  if seg.length < s.length then some (seg, s.drop (seg.length + 1)) else none

/-- Match `\s*(SEV1|SEV2|SEV3)\s*` against a whole segment: maximal leading
whitespace (the literals start with non-whitespace, so no shorter run can
succeed), one of the literals, and an all-whitespace tail. -/
def matchSevSegment (seg : JStr) : Option JStr :=
  let t := seg.dropWhile jsWhitespace
  severityLiterals.find? fun lit =>
    lit.isPrefixOf t && (t.drop lit.length).all jsWhitespace

/-- Match `\s*(\w+)\s*` against a whole segment (classes are disjoint, so the
greedy runs are deterministic). -/
def matchWordSegment (seg : JStr) : Option JStr :=
  let t := seg.dropWhile jsWhitespace
  let w := t.takeWhile isWordChar
  if w ≠ [] ∧ (t.drop w.length).all jsWhitespace then some w else none

/-- Match `\s*(\d+)\s*` against a whole segment. -/
def matchIntSegment (seg : JStr) : Option JStr :=
  let t := seg.dropWhile jsWhitespace
  let d := t.takeWhile isDigitChar
  if d ≠ [] ∧ (t.drop d.length).all jsWhitespace then some d else none

/-- First `some` produced by `f` over a list, in order. -/
def firstSome {α β : Type} (f : α → Option β) : List α → Option β
  | [] => none
  | a :: as =>
    match f a with
    | some b => some b
    | none => firstSome f as

/-- Helper for `tryExtAt`, matching on the part of the segment after the
candidate body. -/
def tryExtAtAux (rest : JStr) (b : Nat) : JStr → Option JStr
  | c :: u =>
    if c = '.' then
      match reviewExtensions.find? (fun e =>
          e.isPrefixOf u && (u.drop e.length).all jsWhitespace) with
      | some e => some (rest.take b ++ '.' :: e)
      | none => none
    else none
  | [] => none

/-- For a fixed `[^|]+` body length `b`: require a `.` right after the body,
then the first extension (in alternation order) that is followed by an
all-whitespace tail; the capture is `body ++ '.' ++ ext`. -/
def tryExtAt (rest : JStr) (b : Nat) : Option JStr :=
  tryExtAtAux rest b (rest.drop b)

/-- Backtrack over `[^|]+` body lengths, longest first (the greedy
preference), requiring a nonempty body. -/
def matchFileBody (rest : JStr) : Option JStr :=
  firstSome (fun b => if 1 ≤ b then tryExtAt rest b else none)
    (List.range rest.length).reverse

/-- Match `\s*([^\|]+\.(?:EXTS))\s*` against a whole segment: leading
whitespace runs are tried longest first, then bodies longest first. -/
def matchFileSegment (seg : JStr) : Option JStr :=
  firstSome (fun w => matchFileBody (seg.drop w))
    (List.range ((seg.takeWhile jsWhitespace).length + 1)).reverse

/-- Match `\s*([^|]+)` against a whole segment followed directly by `\|`: the
greedy `[^|]+` takes everything after the whitespace run; when the segment is
all whitespace, the run gives back one character so that `[^|]+` is
nonempty. -/
def matchTailSegment (seg : JStr) : Option JStr :=
  if seg = [] then none
  else some (seg.drop (min (seg.takeWhile jsWhitespace).length (seg.length - 1)))

/-- `parseInt` on a nonempty all-digit capture. -/
def digitsToNat (ds : JStr) : Nat :=
  ds.foldl (fun acc c => acc * 10 + (c.toNat - 48)) 0

/-- One parsed review issue row. -/
structure ReviewIssue where
  severity : JStr
  category : JStr
  fileName : JStr
  line : Nat
  issue : JStr
  fix : JStr
deriving DecidableEq

/-- Match one full table row anchored at the start of `s` (which must begin
with `|`); returns the issue and the remainder after the row's final `|`
(= the `lastIndex` the JavaScript engine resumes from). -/
def matchRowAt (s : JStr) : Option (ReviewIssue × JStr) :=
  match s with
  | c :: s1 =>
    if c = '|' then
      (takeSeg s1).bind fun pA =>
      (matchSevSegment pA.1).bind fun sev =>
      (takeSeg pA.2).bind fun pB =>
      (matchWordSegment pB.1).bind fun cat =>
      (takeSeg pB.2).bind fun pC =>
      (matchFileSegment pC.1).bind fun file =>
      (takeSeg pC.2).bind fun pD =>
      (matchIntSegment pD.1).bind fun lineDigits =>
      (takeSeg pD.2).bind fun pE =>
      (matchTailSegment pE.1).bind fun issueTxt =>
      (takeSeg pE.2).bind fun pF =>
      (matchTailSegment pF.1).map fun fixTxt =>
        ({ severity := jsTrim sev, category := jsTrim cat,
           fileName := jsTrim file, line := digitsToNat lineDigits,
           issue := jsTrim issueTxt, fix := jsTrim fixTxt }, pF.2)
    else none
  | [] => none

/-- The global `exec` scan: try a match at each position, resuming after a
successful row; the fuel (the input length) bounds the walk, and every step
consumes at least one character. -/
def scanRowsCore : Nat → JStr → List ReviewIssue
  | 0, _ => []
  | _ + 1, [] => []
  | fuel + 1, c :: rest =>
    match matchRowAt (c :: rest) with
    | some (iss, after) => iss :: scanRowsCore fuel after
    | none => scanRowsCore fuel rest

/-- `parseReviewIssues` from lib/review.js. -/
def parseReviewIssues (s : JStr) : List ReviewIssue := scanRowsCore s.length s

/-- No position of the text starts a table-row match. -/
def noRowMatches : JStr → Bool
  | [] => true
  | c :: rest => (matchRowAt (c :: rest)).isNone && noRowMatches rest

/-- The table row whose line column is `0`, accepted by the `(\d+)` group. -/
def c3ZeroRow : JStr := chars "| 🔴 CRITICAL | Bugs | Query.cs | 0 | a | b |"

/-! ## Output cleaning and spec compilation (us2f.js)

`compileToSpec` calls the LLM, cleans the response, validates it, and either
patches a missing AC section or retries once on truncation-class issues.  The
nondeterministic LLM is modelled as a function from call index to response
text (call `k` is the one made with `retryCount = k`). -/

/-- ASCII lower-casing, as applied by `toLowerCase` to the characters that can
occur in the keyword filter (all keywords are ASCII). -/
def charLower (c : Char) : Char :=
  if 'A' ≤ c && c ≤ 'Z' then Char.ofNat (c.toNat + 32) else c

/-- `s.toLowerCase()`. -/
def jsToLower (s : JStr) : JStr := s.map charLower

/-- Case-insensitive prefix test (the `i` flag on an alternation of ASCII
literals). -/
def ciPrefix : JStr → JStr → Bool
  | [], _ => true
  | _ :: _, [] => false
  | p :: ps, c :: cs => charLower p = charLower c && ciPrefix ps cs

/-- The apostrophe character, U+0027. -/
def apos : Char := Char.ofNat 39

/-- The preamble alternation
`^(Here is|Here's|The following|Below is|I've extracted)` in source order;
no two phrases can match the same text since they diverge within their common
prefix. -/
def preamblePhrases : List JStr :=
  [chars "Here is", chars "Here" ++ [apos] ++ chars "s", chars "The following",
   chars "Below is", chars "I" ++ [apos] ++ chars "ve extracted"]

/-- `replace(/^(...)[^\n]*\n*/gi, '')`: anchored at the string start (no `m`
flag), so at most one removal — the matched phrase, the rest of its line, and
any following newlines. -/
def stripPreamble (t : JStr) : JStr :=
  match preamblePhrases.find? (fun ph => ciPrefix ph t) with
  | some ph =>
    ((t.drop ph.length).dropWhile (fun c => c ≠ '\n')).dropWhile (fun c => c = '\n')
  | none => t

/-- A match of ```` ```[a-z]*\s*``` ```` at the start of `s`: returns the
remainder after the match (the classes are disjoint from the literal
backtick, so the greedy runs are deterministic). -/
def matchFencePairAt (s : JStr) : Option JStr :=
  if (chars "```").isPrefixOf s then
    let rest :=
      ((s.drop 3).dropWhile fun c => 'a' ≤ c && c ≤ 'z').dropWhile jsWhitespace
    if (chars "```").isPrefixOf rest then some (rest.drop 3) else none
  else none

/-- A match of ```` ```[a-z]*\n? ```` (with the `i` flag, so ASCII letters of
both cases) at the start of `s`. -/
def matchFenceOpenAt (s : JStr) : Option JStr :=
  if (chars "```").isPrefixOf s then
    let t := (s.drop 3).dropWhile fun c =>
      ('a' ≤ c && c ≤ 'z') || ('A' ≤ c && c ≤ 'Z')
    some (if t.head? = some '\n' then t.tail else t)
  else none

/-- A match of the literal ```` ``` ```` at the start of `s`. -/
def matchTicksAt (s : JStr) : Option JStr :=
  if (chars "```").isPrefixOf s then some (s.drop 3) else none

/-- A global `replace(..., '')` walk: delete every leftmost match and resume
after it.  Each matcher consumes at least one character on success, so the
input length is sufficient fuel. -/
def deleteMatchesCore (m : JStr → Option JStr) : Nat → JStr → JStr
  | 0, _ => []
  | _ + 1, [] => []
  | fuel + 1, c :: rest =>
    match m (c :: rest) with
    | some after => deleteMatchesCore m fuel after
    | none => c :: deleteMatchesCore m fuel rest

/-- Global match deletion over a whole string. -/
def deleteMatches (m : JStr → Option JStr) (s : JStr) : JStr :=
  deleteMatchesCore m s.length s

/-- The `BACKEND_KEYWORDS` list of us2f.js. -/
def backendKeywords : List JStr :=
  [chars "database", chars "sql", chars "repository", chars "entity framework",
   chars "migration", chars "dbcontext", chars "connection string",
   chars "stored procedure"]

/-- `cleanOutput` from us2f.js: strip one leading preamble line, remove
empty code-fence pairs, fence openers and stray fence markers, drop every
line containing a backend keyword (case-insensitive substring test), and
trim. -/
def cleanOutput (t : JStr) : JStr :=
  let t4 := deleteMatches matchTicksAt
    (deleteMatches matchFenceOpenAt
      (deleteMatches matchFencePairAt (stripPreamble t)))
  jsTrim (jsJoin '\n' ((jsSplitOn '\n' t4).filter fun line =>
    !(backendKeywords.any fun kw => jsIncludes (jsToLower line) kw)))

/-- The issue list of the inline `validateOutput` of us2f.js (the frontend
template checks), in source push order. -/
def frontendIssues (t : JStr) : List JStr :=
  (if jsIncludes t (chars "Component:") then []
   else [chars "Missing \"Component:\" section"]) ++
  (if jsIncludes t (chars "- Name:") then []
   else [chars "Missing \"- Name:\" in Component"]) ++
  (if jsIncludes t (chars "UI Elements:") || jsIncludes t (chars "Elements:") then []
   else [chars "Missing \"UI Elements:\" section"]) ++
  (if jsIncludes t (chars "Behavior:") || jsIncludes t (chars "Interactions:") then []
   else [chars "Missing \"Behavior:\" or \"Interactions:\" section"]) ++
  (if jsIncludes t (chars "AC:") then []
   else [chars "Missing \"AC:\" section"]) ++
  (if jsEndsWith t '-' || jsEndsWith t ':' || jsEndsWith t ',' then
    [chars "Output appears to be truncated"]
   else [])

/-- The inline `validateOutput` of us2f.js. -/
def validateOutputUs2f (t : JStr) : ValidationResult :=
  { isValid := (frontendIssues t).length == 0, issues := frontendIssues t }

/-- `i.includes('truncated') || i.includes('incomplete')`: the
truncation/incomplete class of issue descriptions. -/
def truncOrIncomplete (i : JStr) : Bool :=
  jsIncludes i (chars "truncated") || jsIncludes i (chars "incomplete")

/-- The stand-in line appended when only the AC section is missing. -/
def acStandIn : JStr := chars "\n\nAC: (verify manually)"

/-- The missing-AC issue text. -/
def acMissingMsg : JStr := chars "Missing \"AC:\" section"

/-- `compileToSpec` from us2f.js, with an explicit budget making the bounded
recursion structural: `budget = 1 - retryCount` is positive exactly when the
retry guard `retryCount < 1` can fire, so the zero-budget fallback is
unreachable from the top-level entry.  The third component counts the LLM
calls made. -/
def compileToSpecAux (resp : Nat → JStr) :
    Nat → Nat → JStr × ValidationResult × Nat
  | 0, retryCount =>
    let result := cleanOutput (resp retryCount)
    let v := validateOutputUs2f result
    if v.isValid then (result, v, 1)
    else if v.issues = [acMissingMsg] then (result ++ acStandIn, v, 1)
    else (result, v, 1)
  | b + 1, retryCount =>
    let result := cleanOutput (resp retryCount)
    let v := validateOutputUs2f result
    if v.isValid then (result, v, 1)
    else if v.issues = [acMissingMsg] then (result ++ acStandIn, v, 1)
    else if v.issues.any truncOrIncomplete ∧ retryCount < 1 then
      let r := compileToSpecAux resp b (retryCount + 1)
      (r.1, r.2.1, r.2.2 + 1)
    else (result, v, 1)

/-- `compileToSpec(story, retryCount)`: the story only shapes the prompt, so
the model keeps just the response sequence. -/
def compileToSpec (resp : Nat → JStr) (retryCount : Nat) :
    JStr × ValidationResult × Nat :=
  compileToSpecAux resp (1 - retryCount) retryCount

/-- A concrete LLM response whose validation reports exactly the missing-AC
issue: all other sections present, no truncation ending, nothing cleaned. -/
def c10AcOnlyResponse : JStr :=
  chars "Component:\n- Name: X\nUI Elements:\n- b\nBehavior:\n- c"

theorem jsSplitOn_ne_nil (sep : Char) (s : JStr) : jsSplitOn sep s ≠ [] := by
  induction s with
  | nil => simp [jsSplitOn]
  | cons c rest ih =>
    simp only [jsSplitOn]
    split
    · simp
    · split
      · simp
      · simp

theorem mem_jsSplitOn_not_mem (sep : Char) (s : JStr) :
    ∀ part ∈ jsSplitOn sep s, sep ∉ part := by
  induction s with
  | nil => intro part hp; simp [jsSplitOn] at hp; simp [hp]
  | cons c rest ih =>
    intro part hp
    simp only [jsSplitOn] at hp
    split at hp
    · rcases List.mem_cons.mp hp with rfl | hmem
      · simp
      · exact ih part hmem
    · rename_i hne
      rcases hr : jsSplitOn sep rest with _ | ⟨h, t⟩
      · exact absurd hr (jsSplitOn_ne_nil sep rest)
      · rw [hr] at hp
        rcases List.mem_cons.mp hp with rfl | hmem
        · intro hc
          rcases List.mem_cons.mp hc with rfl | hc2
          · exact hne rfl
          · exact ih h (by rw [hr]; exact List.mem_cons_self h t) hc2
        · exact ih part (by rw [hr]; exact List.mem_cons_of_mem h hmem)

theorem jsSplitOn_sep_free (sep : Char) (s : JStr) (h : sep ∉ s) :
    jsSplitOn sep s = [s] := by
  induction s with
  | nil => simp [jsSplitOn]
  | cons c rest ih =>
    simp only [List.mem_cons, not_or] at h
    simp only [jsSplitOn]
    rw [if_neg (fun hc => h.1 hc.symm), ih h.2]

theorem jsSplitOn_jsJoin (sep : Char) (parts : List JStr)
    (hne : parts ≠ []) (hfree : ∀ p ∈ parts, sep ∉ p) :
    jsSplitOn sep (jsJoin sep parts) = parts := by
  induction parts with
  | nil => exact absurd rfl hne
  | cons p rest ih =>
    rcases rest with _ | ⟨q, rest'⟩
    · simpa [jsJoin] using jsSplitOn_sep_free sep p (hfree p (by simp))
    · have hp : sep ∉ p := hfree p (by simp)
      have hrest : jsSplitOn sep (jsJoin sep (q :: rest')) = q :: rest' := by
        apply ih (by simp)
        intro r hr; exact hfree r (List.mem_cons_of_mem p hr)
      show jsSplitOn sep (p ++ sep :: jsJoin sep (q :: rest')) = _
      clear ih hne hfree
      induction p with
      | nil => simp [jsSplitOn, hrest]
      | cons c cs ihp =>
        simp only [List.mem_cons, not_or] at hp
        simp only [List.cons_append, jsSplitOn]
        rw [if_neg (fun hc => hp.1 hc.symm)]
        simp only [List.append_eq]
        rw [ihp hp.2]

theorem digitChar_digit (d : Nat) : '0' ≤ digitChar d ∧ digitChar d ≤ '9' := by
  unfold digitChar
  split <;> exact ⟨by decide, by decide⟩

theorem natCharsCore_digits (fuel n : Nat) :
    ∀ c ∈ natCharsCore fuel n, '0' ≤ c ∧ c ≤ '9' := by
  induction fuel generalizing n with
  | zero => intro c hc; simp [natCharsCore] at hc
  | succ fuel ih =>
    intro c hc
    unfold natCharsCore at hc
    split at hc
    · simp only [List.mem_singleton] at hc
      exact hc ▸ digitChar_digit n
    · rcases List.mem_append.mp hc with h1 | h2
      · exact ih (n / 10) c h1
      · simp only [List.mem_singleton] at h2
        exact h2 ▸ digitChar_digit (n % 10)

theorem natChars_digits (n : Nat) : ∀ c ∈ natChars n, '0' ≤ c ∧ c ≤ '9' :=
  natCharsCore_digits (n + 1) n

theorem natChars_no_newline (n : Nat) : '\n' ∉ natChars n := by
  intro h
  have := natChars_digits n '\n' h
  revert this
  decide

theorem differsAt_lt_max (oldL newL : List JStr) (i : Nat)
    (h : differsAt oldL newL i = true) : i < max oldL.length newL.length := by
  by_contra hge
  push_neg at hge
  have h1 : oldL[i]? = none := List.getElem?_eq_none (le_of_max_le_left hge)
  have h2 : newL[i]? = none := List.getElem?_eq_none (le_of_max_le_right hge)
  simp [differsAt, h1, h2] at h

theorem differsAt_isMarked (oldL newL : List JStr) (k i : Nat)
    (h : differsAt oldL newL i = true) : isMarked oldL newL k i = true := by
  simp [isMarked, h]

theorem mem_sortedMarked (oldL newL : List JStr) (k i : Nat) :
    i ∈ sortedMarked oldL newL k ↔
      isMarked oldL newL k i = true ∧ i < max oldL.length newL.length := by
  simp [sortedMarked, List.mem_filter, List.mem_range, and_comm]

theorem isMarked_lt_max (oldL newL : List JStr) (k i : Nat)
    (h : isMarked oldL newL k i = true) : i < max oldL.length newL.length := by
  simp only [isMarked, Bool.or_eq_true] at h
  rcases h with h | h
  · exact differsAt_lt_max oldL newL i h
  · simp only [List.any_eq_true, List.mem_range] at h
    obtain ⟨j, _, hj⟩ := h
    simp only [Bool.and_eq_true, decide_eq_true_eq] at hj
    have : i < newL.length := hj.2
    omega

theorem mem_renderEntriesAux (oldL newL : List JStr) (nums : List Nat)
    (i : Nat) (hi : i ∈ nums) :
    ∀ lastLine nonempty,
      renderLine oldL newL i ∈ renderEntriesAux oldL newL nums lastLine nonempty := by
  induction nums with
  | nil => simp at hi
  | cons n rest ih =>
    intro lastLine nonempty
    rcases List.mem_cons.mp hi with rfl | hmem
    · simp [renderEntriesAux]
    · simp only [renderEntriesAux, List.mem_append, List.mem_cons]
      right; right
      exact ih hmem _ _

theorem shape_renderEntriesAux (oldL newL : List JStr) (nums : List Nat)
    (p : Nat → Prop) (hall : ∀ x ∈ nums, p x) :
    ∀ lastLine nonempty,
      ∀ e ∈ renderEntriesAux oldL newL nums lastLine nonempty,
        e = chars "..." ∨ ∃ i, p i ∧ e = renderLine oldL newL i := by
  induction nums with
  | nil => intro _ _ e he; simp [renderEntriesAux] at he
  | cons n rest ih =>
    intro lastLine nonempty e he
    simp only [renderEntriesAux, List.mem_append, List.mem_cons] at he
    rcases he with hsep | rfl | hrest
    · left
      rcases hc : ((n : Int) > lastLine + 1 && nonempty) with _ | _
      · rw [hc] at hsep; simp at hsep
      · rw [hc] at hsep; simpa using hsep
    · right; exact ⟨n, hall n (by simp), rfl⟩
    · exact ih (fun x hx => hall x (List.mem_cons_of_mem n hx)) _ _ e hrest

theorem newline_not_mem_renderLine (oldL newL : List JStr) (i : Nat)
    (hc : '\n' ∉ newL.getD i []) : '\n' ∉ renderLine oldL newL i := by
  intro hmem
  unfold renderLine at hmem
  rcases List.mem_cons.mp hmem with heq | hmem2
  · revert heq; split <;> decide
  · rcases List.mem_append.mp hmem2 with h1 | h2
    · exact natChars_no_newline (i + 1) h1
    · rcases List.mem_cons.mp h2 with h3 | h4
      · exact absurd h3 (by decide)
      · exact hc h4

theorem getD_splitOn_no_newline (s : JStr) (i : Nat) :
    '\n' ∉ (jsSplitOn '\n' s).getD i [] := by
  rcases h : (jsSplitOn '\n' s)[i]? with _ | part
  · simp [List.getD_eq_getElem?_getD, h]
  · simp only [List.getD_eq_getElem?_getD, h, Option.getD_some]
    exact mem_jsSplitOn_not_mem '\n' s part (List.getElem?_mem h)

theorem newline_not_mem_entries (oldL newL : List JStr) (k : Nat)
    (hcontent : ∀ i, '\n' ∉ newL.getD i []) :
    ∀ e ∈ renderEntries oldL newL k, '\n' ∉ e := by
  intro e he
  rcases shape_renderEntriesAux oldL newL (sortedMarked oldL newL k)
      (fun _ => True) (fun _ _ => trivial) _ _ e he with rfl | ⟨i, _, rfl⟩
  · decide
  · exact newline_not_mem_renderLine oldL newL i (hcontent i)

theorem renderNewAux_ne_nil (j : Nat) (L : List JStr) (h : L ≠ []) :
    renderNewAux j L ≠ [] := by
  cases L with
  | nil => exact absurd rfl h
  | cons l ls => simp [renderNewAux]

theorem renderNewAux_length (j : Nat) (L : List JStr) :
    (renderNewAux j L).length = L.length := by
  induction L generalizing j with
  | nil => simp [renderNewAux]
  | cons l ls ih => simp [renderNewAux, ih]

theorem renderNewAux_getElem? (j : Nat) (L : List JStr) (i : Nat) :
    (renderNewAux j L)[i]? =
      (L[i]?).map fun l => '+' :: natChars (j + i + 1) ++ '|' :: l := by
  induction L generalizing j i with
  | nil => simp [renderNewAux]
  | cons l ls ih =>
    cases i with
    | zero => simp [renderNewAux]
    | succ i' =>
      simp only [renderNewAux, List.getElem?_cons_succ, ih (j + 1) i']
      have : j + 1 + i' = j + (i' + 1) := by omega
      rw [this]

theorem newline_not_mem_renderNewAux (j : Nat) (L : List JStr)
    (hL : ∀ l ∈ L, '\n' ∉ l) :
    ∀ e ∈ renderNewAux j L, '\n' ∉ e := by
  induction L generalizing j with
  | nil => intro e he; simp [renderNewAux] at he
  | cons l ls ih =>
    intro e he
    simp only [renderNewAux, List.mem_cons] at he
    rcases he with rfl | he2
    · intro hmem
      rcases List.mem_cons.mp hmem with h1 | h2
      · exact absurd h1 (by decide)
      · rcases List.mem_append.mp h2 with h3 | h4
        · exact natChars_no_newline (j + 1) h3
        · rcases List.mem_cons.mp h4 with h5 | h6
          · exact absurd h5 (by decide)
          · exact hL l (by simp) h6
    · exact ih (j + 1) (fun x hx => hL x (List.mem_cons_of_mem l hx)) e he2

theorem extractChangedLines_some_ne (o n : JStr) (k : Nat) (h : o ≠ []) :
    extractChangedLines (some o) n k =
      jsJoin '\n'
        ((renderEntries (jsSplitOn '\n' o) (jsSplitOn '\n' n) k).take 100) := by
  simp [extractChangedLines, h]

/-- C1 counterexample: with 101 differing lines, line index 100 differs between
old and new, yet no `+101|` line appears in the rendered output — the
`slice(0, 100)` cap silently drops it, so the extractor's output does NOT
include a `+`-prefixed line for every differing index. -/
theorem spec_c1_cap_counterexample :
    differsAt (jsSplitOn '\n' c1OldText) (jsSplitOn '\n' c1NewText) 100 = true ∧
    jsIncludes (extractChangedLines (some c1OldText) c1NewText 3)
      (chars "+101|") = false := by
  decide

/-- C1 (amended): for a present, nonempty old revision, BEFORE the final
100-line truncation the render contains a `+`-prefixed line for every index at
which old and new differ, and a space-prefixed line for every marked
(context) index whose contents agree; every rendered entry is either the
`...` separator or the line of a marked index, `+`-prefixed exactly when its
contents differ; the final output is the first 100 of these entries, hence
never exceeds 100 lines (marked lines beyond the cap are dropped). -/
theorem spec_c1_paired_diff (o n : JStr) (h : o ≠ []) :
    (∀ i, differsAt (jsSplitOn '\n' o) (jsSplitOn '\n' n) i = true →
      renderLine (jsSplitOn '\n' o) (jsSplitOn '\n' n) i ∈
        renderEntries (jsSplitOn '\n' o) (jsSplitOn '\n' n) 3 ∧
      (renderLine (jsSplitOn '\n' o) (jsSplitOn '\n' n) i).head? = some '+') ∧
    (∀ i, isMarked (jsSplitOn '\n' o) (jsSplitOn '\n' n) 3 i = true →
      differsAt (jsSplitOn '\n' o) (jsSplitOn '\n' n) i = false →
      renderLine (jsSplitOn '\n' o) (jsSplitOn '\n' n) i ∈
        renderEntries (jsSplitOn '\n' o) (jsSplitOn '\n' n) 3 ∧
      (renderLine (jsSplitOn '\n' o) (jsSplitOn '\n' n) i).head? = some ' ') ∧
    (∀ e ∈ renderEntries (jsSplitOn '\n' o) (jsSplitOn '\n' n) 3,
      e = chars "..." ∨
      ∃ i, isMarked (jsSplitOn '\n' o) (jsSplitOn '\n' n) 3 i = true ∧
        e = renderLine (jsSplitOn '\n' o) (jsSplitOn '\n' n) i) ∧
    jsSplitOn '\n' (extractChangedLines (some o) n 3) =
      (if renderEntries (jsSplitOn '\n' o) (jsSplitOn '\n' n) 3 = [] then [[]]
       else (renderEntries (jsSplitOn '\n' o) (jsSplitOn '\n' n) 3).take 100) ∧
    (jsSplitOn '\n' (extractChangedLines (some o) n 3)).length ≤ 100 := by
  set oldL := jsSplitOn '\n' o with holdL
  set newL := jsSplitOn '\n' n with hnewL
  have hfree : ∀ e ∈ renderEntries oldL newL 3, '\n' ∉ e :=
    newline_not_mem_entries oldL newL 3 (fun i => hnewL ▸ getD_splitOn_no_newline n i)
  have hout : extractChangedLines (some o) n 3 =
      jsJoin '\n' ((renderEntries oldL newL 3).take 100) :=
    extractChangedLines_some_ne o n 3 h
  have hsplit : jsSplitOn '\n' (extractChangedLines (some o) n 3) =
      (if renderEntries oldL newL 3 = [] then [[]]
       else (renderEntries oldL newL 3).take 100) := by
    rw [hout]
    rcases hE : renderEntries oldL newL 3 with _ | ⟨e0, es⟩
    · simp [jsJoin, jsSplitOn]
    · rw [if_neg (by simp)]
      apply jsSplitOn_jsJoin
      · simp
      · intro p hp
        exact hfree p (hE ▸ List.mem_of_mem_take hp)
  refine ⟨?_, ?_, ?_, hsplit, ?_⟩
  · intro i hi
    constructor
    · exact mem_renderEntriesAux oldL newL _ i
        ((mem_sortedMarked oldL newL 3 i).mpr
          ⟨differsAt_isMarked oldL newL 3 i hi, differsAt_lt_max oldL newL i hi⟩) _ _
    · simp [renderLine, hi]
  · intro i hm hd
    constructor
    · exact mem_renderEntriesAux oldL newL _ i
        ((mem_sortedMarked oldL newL 3 i).mpr ⟨hm, isMarked_lt_max oldL newL 3 i hm⟩) _ _
    · simp [renderLine, hd]
  · intro e he
    exact shape_renderEntriesAux oldL newL _ (fun i => isMarked oldL newL 3 i = true)
      (fun x hx => ((mem_sortedMarked oldL newL 3 x).mp hx).1) _ _ e he
  · rw [hsplit]
    split
    · simp
    · exact List.length_take_le 100 _

/-- C1 witness: the amended theorem applied to the concrete five-line diff
from the spec's scenario (`old = "a\nb\nc\nd\ne"`, `new = "a\nb\nC\nd\ne"`),
discharging the nonemptiness hypothesis at that input. -/
theorem spec_c1_paired_diff_witness :
    renderLine (jsSplitOn '\n' (chars "a\nb\nc\nd\ne"))
        (jsSplitOn '\n' (chars "a\nb\nC\nd\ne")) 2 ∈
      renderEntries (jsSplitOn '\n' (chars "a\nb\nc\nd\ne"))
        (jsSplitOn '\n' (chars "a\nb\nC\nd\ne")) 3 ∧
    (renderLine (jsSplitOn '\n' (chars "a\nb\nc\nd\ne"))
        (jsSplitOn '\n' (chars "a\nb\nC\nd\ne")) 2).head? = some '+' :=
  (spec_c1_paired_diff (chars "a\nb\nc\nd\ne") (chars "a\nb\nC\nd\ne")
    (by decide)).1 2 (by decide)

/-- C2: in the new-file case (no previous revision), the output's lines are
exactly the first 150 input lines rendered as `+<1-based index>|<content>`;
hence there are at most 150 rendered lines, every rendered line number is the
line's 1-based position, and the spec's concrete scenario holds:
`extractChangedLines(null, "a\nb\nc")` is `"+1|a\n+2|b\n+3|c"`. -/
theorem spec_c2_new_file_render (n : JStr) :
    jsSplitOn '\n' (extractChangedLines none n 3) =
      renderNewAux 0 ((jsSplitOn '\n' n).take 150) ∧
    (jsSplitOn '\n' (extractChangedLines none n 3)).length ≤ 150 ∧
    (∀ i : Nat, (renderNewAux 0 ((jsSplitOn '\n' n).take 150))[i]? =
      (((jsSplitOn '\n' n).take 150)[i]?).map
        (fun l => '+' :: natChars (i + 1) ++ '|' :: l)) ∧
    extractChangedLines none (chars "a\nb\nc") 3 = chars "+1|a\n+2|b\n+3|c" := by
  have htake : (jsSplitOn '\n' n).take 150 ≠ [] := by
    intro hnil
    rcases List.take_eq_nil_iff.mp hnil with h | h
    · exact absurd h (by decide)
    · exact jsSplitOn_ne_nil '\n' n h
  have hsplit : jsSplitOn '\n' (extractChangedLines none n 3) =
      renderNewAux 0 ((jsSplitOn '\n' n).take 150) := by
    show jsSplitOn '\n' (jsJoin '\n' (renderNewAux 0 ((jsSplitOn '\n' n).take 150))) = _
    apply jsSplitOn_jsJoin
    · exact renderNewAux_ne_nil 0 _ htake
    · apply newline_not_mem_renderNewAux
      intro l hl
      exact mem_jsSplitOn_not_mem '\n' n l (List.mem_of_mem_take hl)
  refine ⟨hsplit, ?_, ?_, by decide⟩
  · rw [hsplit, renderNewAux_length]
    exact List.length_take_le 150 _
  · intro i
    have := renderNewAux_getElem? 0 ((jsSplitOn '\n' n).take 150) i
    simpa using this

/-- C6 counterexample: with both revisions empty the extractor does NOT return
the empty string — `!oldContent` also holds for an empty old revision, so the
new-file branch renders the single empty line of the empty new content as
`"+1|"`. -/
theorem spec_c6_empty_counterexample :
    extractChangedLines (some []) [] 3 ≠ [] := by
  decide

/-- C6 (amended): the extractor is total — it returns a string for every pair
of inputs — but on two empty revisions (old absent or old empty) it returns
`"+1|"`, not the empty string. -/
theorem spec_c6_total_and_empty :
    extractChangedLines none [] 3 = chars "+1|" ∧
    extractChangedLines (some []) [] 3 = chars "+1|" ∧
    ∀ (o : Option JStr) (n : JStr) (k : Nat), ∃ r, extractChangedLines o n k = r :=
  ⟨by decide, by decide, fun o n k => ⟨extractChangedLines o n k, rfl⟩⟩

/-- C7 counterexample: for the empty text `t = ""`, the identical-inputs
comparison does not yield an empty changed-set — the empty old content is
treated as a missing revision and the output is `"+1|"`, which contains a
`+`-prefixed line. -/
theorem spec_c7_empty_counterexample :
    extractChangedLines (some []) [] 3 = chars "+1|" ∧
    '+' ∈ extractChangedLines (some []) [] 3 := by
  constructor <;> decide

/-- C7 (amended): for every NONEMPTY text `t`, diffing `t` against itself
yields the empty output: no line differs, so no index is marked and nothing is
rendered. -/
theorem spec_c7_identical_inputs (t : JStr) (h : t ≠ []) :
    extractChangedLines (some t) t 3 = [] := by
  rw [extractChangedLines_some_ne t t 3 h]
  have hd : ∀ i, differsAt (jsSplitOn '\n' t) (jsSplitOn '\n' t) i = false := by
    intro i; simp [differsAt]
  have hm : sortedMarked (jsSplitOn '\n' t) (jsSplitOn '\n' t) 3 = [] := by
    apply List.filter_eq_nil_iff.mpr
    intro i _
    simp [isMarked, hd]
  rw [renderEntries, hm]
  rfl

/-- C7 witness: the amended theorem applied to the one-character text `"a"`,
discharging the nonemptiness hypothesis there; the output is the empty
string. -/
theorem spec_c7_identical_inputs_witness :
    extractChangedLines (some (chars "a")) (chars "a") 3 = [] :=
  spec_c7_identical_inputs (chars "a") (by decide)

theorem mem_emitComments (file : Option JStr) (line : Option Int)
    (cs : List PRComment) :
    ∀ r ∈ emitComments file line cs, r.file = file ∧ r.line = line := by
  induction cs with
  | nil => intro r hr; simp [emitComments] at hr
  | cons c cs ih =>
    intro r hr
    unfold emitComments at hr
    split at hr
    · exact ih r hr
    · split at hr
      · rcases List.mem_cons.mp hr with rfl | hmem
        · exact ⟨rfl, rfl⟩
        · exact ih r hmem
      · exact ih r hr

theorem mem_extractPendingCommentsActive (ts : List PRThread) :
    ∀ r ∈ extractPendingCommentsActive ts,
      ∃ t ∈ ts, r.file = threadFile t ∧ r.line = threadLine t := by
  induction ts with
  | nil => intro r hr; simp [extractPendingCommentsActive] at hr
  | cons t ts ih =>
    intro r hr
    unfold extractPendingCommentsActive at hr
    rcases List.mem_append.mp hr with hhead | htail
    · split at hhead
      · simp at hhead
      · split at hhead
        · have := mem_emitComments (threadFile t) (threadLine t) t.comments r hhead
          exact ⟨t, by simp, this⟩
        · simp at hhead
    · obtain ⟨t', ht', hfl⟩ := ih r htail
      exact ⟨t', List.mem_cons_of_mem t ht', hfl⟩

/-- C4 counterexample: a thread whose right-side line field is PRESENT with
value `0` does not contribute `0` as the emitted line number — the extractor
emits the left-side value `5` instead, because `0` is falsy in the
`right || left || null` chain.  This refutes the claim that the line number is
taken from the right-side field whenever it is present. -/
theorem spec_c4_line_zero_counterexample :
    extractPendingCommentsActive [c4Thread] =
      [{ file := none, line := some 5, comment := chars "hi" }] ∧
    (extractPendingCommentsActive [c4Thread]).map PendingComment.line ≠ [some 0] := by
  constructor <;> decide

/-- C4 (amended): both extractor variants emit nothing from a deleted thread;
the comment loop emits nothing from a system-typed comment or one whose
content is null or empty; every emitted record carries its thread's file and
line; and the emitted line number is the right-side field when present and
nonzero, else the left-side field when present and nonzero, else null (a zero
line number is falsy in JavaScript and falls through). -/
theorem spec_c4_comment_filters :
    (∀ (t : PRThread) (ts : List PRThread), t.isDeleted = true →
      extractPendingCommentsActive (t :: ts) = extractPendingCommentsActive ts ∧
      extractPendingCommentsNotFixed (t :: ts) = extractPendingCommentsNotFixed ts) ∧
    (∀ (file : Option JStr) (line : Option Int) (c : PRComment) (cs : List PRComment),
      c.commentType = some (chars "system") →
      emitComments file line (c :: cs) = emitComments file line cs) ∧
    (∀ (file : Option JStr) (line : Option Int) (c : PRComment) (cs : List PRComment),
      c.content = none ∨ c.content = some [] →
      emitComments file line (c :: cs) = emitComments file line cs) ∧
    (∀ (ts : List PRThread) (r : PendingComment), r ∈ extractPendingCommentsActive ts →
      ∃ t ∈ ts, r.file = threadFile t ∧ r.line = threadLine t) ∧
    (∀ (t : PRThread) (tc : ThreadCtx), t.threadContext = some tc →
      (∀ v : Int, tc.rightLine = some v → v ≠ 0 → threadLine t = some v) ∧
      ((tc.rightLine = none ∨ tc.rightLine = some 0) →
        (∀ v : Int, tc.leftLine = some v → v ≠ 0 → threadLine t = some v) ∧
        ((tc.leftLine = none ∨ tc.leftLine = some 0) → threadLine t = none))) ∧
    (∀ t : PRThread, t.threadContext = none → threadLine t = none) := by
  refine ⟨?_, ?_, ?_, ?_, ?_, ?_⟩
  · intro t ts hdel
    constructor
    · simp [extractPendingCommentsActive, hdel]
    · simp [extractPendingCommentsNotFixed, hdel]
  · intro file line c cs hsys
    simp [emitComments, hsys]
  · intro file line c cs hcontent
    have hfalse : contentTruthy c.content = false := by
      rcases hcontent with h | h <;> simp [h, contentTruthy]
    simp only [emitComments, hfalse]
    split <;> rfl
  · exact mem_extractPendingCommentsActive
  · intro t tc htc
    refine ⟨?_, ?_⟩
    · intro v hv hnz
      simp [threadLine, htc, jsOrLine, hv, hnz]
    · intro hright
      refine ⟨?_, ?_⟩
      · intro v hv hnz
        rcases hright with h | h <;> simp [threadLine, htc, jsOrLine, h, hv, hnz]
      · intro hleft
        rcases hright with h | h <;> rcases hleft with h2 | h2 <;>
          simp [threadLine, htc, jsOrLine, h, h2]
  · intro t htc
    simp [threadLine, htc]

/-- C4 witness: the amended theorem applied to a concrete deleted thread (its
output is dropped) and to a concrete context whose right-side line is `7`. -/
theorem spec_c4_comment_filters_witness :
    extractPendingCommentsActive [c4DeletedThread] = [] ∧
    threadLine c4RightThread = some 7 := by
  constructor
  · rw [(spec_c4_comment_filters.1 c4DeletedThread [] rfl).1]
    rfl
  · exact (spec_c4_comment_filters.2.2.2.2.1 c4RightThread
      { filePath := none, rightLine := some 7, leftLine := none } rfl).1 7 rfl (by decide)

/-- C5 counterexample: the two extractor variants are NOT extensionally
equivalent — on a thread whose status is the string `'pending'`, the
active-only variant drops the thread while the not-fixed variant keeps it, so
the outputs differ. -/
theorem spec_c5_policies_differ :
    extractPendingCommentsActive [c5PendingThread] = [] ∧
    extractPendingCommentsNotFixed [c5PendingThread] =
      [{ file := none, line := none, comment := chars "x" }] ∧
    extractPendingCommentsActive [c5PendingThread] ≠
      extractPendingCommentsNotFixed [c5PendingThread] := by
  refine ⟨by decide, by decide, by decide⟩

/-- C5 (amended): the two variants agree on every thread list whose threads
are each deleted or carry one of the four statuses `'active'`, numeric `1`,
`'fixed'`, `'closed'`; outside that shared vocabulary (e.g. `'pending'`) the
active-only variant drops the thread while the not-fixed variant keeps it. -/
theorem spec_c5_policies_agree_on_vocab (ts : List PRThread)
    (h : ∀ t ∈ ts, t.isDeleted = true ∨
      t.status = JStatus.sstr (chars "active") ∨ t.status = JStatus.snum 1 ∨
      t.status = JStatus.sstr (chars "fixed") ∨ t.status = JStatus.sstr (chars "closed")) :
    extractPendingCommentsActive ts = extractPendingCommentsNotFixed ts := by
  induction ts with
  | nil => rfl
  | cons t ts ih =>
    have hrest : extractPendingCommentsActive ts = extractPendingCommentsNotFixed ts :=
      ih fun x hx => h x (List.mem_cons_of_mem t hx)
    have hhead := h t (by simp)
    simp only [extractPendingCommentsActive, extractPendingCommentsNotFixed, hrest]
    congr 1
    rcases hhead with hdel | hst | hst | hst | hst
    · rw [if_pos hdel, if_pos hdel]
    all_goals rw [hst]
    all_goals split
    all_goals rfl

/-- C5 witness: the amended agreement theorem applied to a concrete thread
list whose statuses all lie in the shared vocabulary. -/
theorem spec_c5_policies_agree_witness :
    extractPendingCommentsActive [c4RightThread, c4DeletedThread] =
      extractPendingCommentsNotFixed [c4RightThread, c4DeletedThread] :=
  spec_c5_policies_agree_on_vocab [c4RightThread, c4DeletedThread] (by decide)

/-- C8 counterexample: the us2f.js field extractor variant THROWS on a record
whose fields map is absent (`workItem.fields` is `undefined` and the property
read faults), refuting "the field extractor never throws" for that cited
variant. -/
theorem spec_c8_us2f_throws :
    extractFieldsUs2f { id := 1, fields := none } = none := by
  rfl

/-- C8 (amended): the lib/azure.js field extractor is total and treats a
record with an absent fields map identically to one with an empty fields map:
title, description and acceptanceCriteria all come out as the empty string.
The inline us2f.js variant instead throws when the fields map is absent. -/
theorem spec_c8_absent_fields (w : WorkItemRaw) (h : w.fields = none) :
    extractFieldsAzure w = extractFieldsAzure { id := w.id, fields := some [] } ∧
    extractFieldsAzure w =
      { id := w.id, title := [], description := [], acceptanceCriteria := [] } := by
  rcases w with ⟨i, fs⟩
  cases h
  exact ⟨rfl, rfl⟩

/-- C8 witness: the amended theorem applied to the concrete record with id `7`
and no fields object. -/
theorem spec_c8_absent_fields_witness :
    extractFieldsAzure { id := 7, fields := none } =
      { id := 7, title := [], description := [], acceptanceCriteria := [] } :=
  (spec_c8_absent_fields { id := 7, fields := none } rfl).2

theorem mem_ite_push {c : Prop} [Decidable c] {a m : JStr} :
    (a ∈ if c then [m] else []) ↔ c ∧ a = m := by
  split
  · rename_i h; simp [h]
  · rename_i h; simp [h]

theorem mem_ite_skip {c : Prop} [Decidable c] {a m : JStr} :
    (a ∈ if c then [] else [m]) ↔ ¬c ∧ a = m := by
  split
  · rename_i h; simp [h]
  · rename_i h; simp [h]

/-- C9 counterexample: for the text `"-\n"` the last NON-WHITESPACE character
is a hyphen, yet the validator reports no truncation issue, because the code
tests `text.endsWith('-')` on the literal last character (here a newline).
This refutes "reports the truncation issue exactly when the text's last
non-whitespace character is a hyphen, colon, or comma". -/
theorem spec_c9_trailing_ws_counterexample :
    lastNonWsChar (chars "-\n") = some '-' ∧
    chars "Output appears to be truncated" ∉
      (validateBackendOutput (chars "-\n")).issues := by
  constructor <;> decide

/-- C9 (amended): validation is total and structured — the pass flag is true
exactly when the issue list is empty — and the truncation issue is reported
exactly when the text's LAST CHARACTER (not last non-whitespace character) is
a hyphen, colon, or comma. -/
theorem spec_c9_validator_structure (t : JStr) :
    ((validateBackendOutput t).isValid = true ↔
      (validateBackendOutput t).issues = []) ∧
    (chars "Output appears to be truncated" ∈ (validateBackendOutput t).issues ↔
      (jsEndsWith t '-' || jsEndsWith t ':' || jsEndsWith t ',') = true) := by
  constructor
  · show ((backendIssues t).length == 0) = true ↔ backendIssues t = []
    rw [beq_iff_eq, List.length_eq_zero]
  · show chars "Output appears to be truncated" ∈ backendIssues t ↔ _
    have h1 : chars "Output appears to be truncated" ≠
      chars "Missing \"Mutation:\" section" := by decide
    have h2 : chars "Output appears to be truncated" ≠
      chars "Missing \"- Name:\" in Mutation" := by decide
    have h3 : chars "Output appears to be truncated" ≠
      chars "Missing \"- Input:\" in Mutation" := by decide
    have h4 : chars "Output appears to be truncated" ≠
      chars "Missing \"- Returns:\" in Mutation" := by decide
    have h5 : chars "Output appears to be truncated" ≠
      chars "Missing \"Behavior:\" section" := by decide
    have h6 : chars "Output appears to be truncated" ≠
      chars "Missing \"Rules:\" section" := by decide
    have h7 : chars "Output appears to be truncated" ≠
      chars "Missing \"AC:\" section" := by decide
    have h8 : chars "Output appears to be truncated" ≠
      chars "Incomplete record (missing closing parenthesis)" := by decide
    unfold backendIssues
    simp [List.mem_append, mem_ite_push, mem_ite_skip, h1, h2, h3, h4, h5, h6, h7, h8]

theorem firstSome_eq_some {α β : Type} (f : α → Option β) (l : List α) (b : β)
    (h : firstSome f l = some b) : ∃ a ∈ l, f a = some b := by
  induction l with
  | nil => simp [firstSome] at h
  | cons a as ih =>
    unfold firstSome at h
    rcases hfa : f a with _ | b'
    · rw [hfa] at h
      obtain ⟨a', ha', hb'⟩ := ih h
      exact ⟨a', List.mem_cons_of_mem a ha', hb'⟩
    · rw [hfa] at h
      cases h
      exact ⟨a, by simp, hfa⟩

theorem tryExtAt_shape (rest : JStr) (b : Nat) (g : JStr)
    (h : tryExtAt rest b = some g) (hb : 1 ≤ b) :
    ∃ e ∈ reviewExtensions, ∃ body, body ≠ [] ∧ g = body ++ '.' :: e := by
  unfold tryExtAt at h
  rcases hdrop : rest.drop b with _ | ⟨c, u⟩ <;> rw [hdrop] at h
  · simp [tryExtAtAux] at h
  · simp only [tryExtAtAux] at h
    by_cases hc : c = '.'
    · rw [if_pos hc] at h
      rcases hfind : reviewExtensions.find? (fun e =>
          e.isPrefixOf u && (u.drop e.length).all jsWhitespace) with _ | e
      · rw [hfind] at h; cases h
      · rw [hfind] at h
        cases h
        subst hc
        refine ⟨e, List.mem_of_find?_eq_some hfind, rest.take b, ?_, rfl⟩
        intro htake
        have h0 : (rest.take b).length = 0 := by rw [htake]; rfl
        rw [List.length_take] at h0
        have hlen : rest.length ≤ b ∨ b = 0 := by omega
        rcases hlen with hlen | hlen
        · have hnil : rest.drop b = [] := List.drop_eq_nil_of_le hlen
          rw [hnil] at hdrop
          cases hdrop
        · omega
    · rw [if_neg hc] at h; cases h

theorem matchFileSegment_shape (seg g : JStr)
    (h : matchFileSegment seg = some g) :
    ∃ e ∈ reviewExtensions, ∃ body, body ≠ [] ∧ g = body ++ '.' :: e := by
  obtain ⟨w, _, hw⟩ := firstSome_eq_some _ _ _ h
  obtain ⟨b, _, hb⟩ := firstSome_eq_some _ _ _ hw
  by_cases hge : 1 ≤ b
  · rw [if_pos hge] at hb
    exact tryExtAt_shape _ b g hb hge
  · rw [if_neg hge] at hb; cases hb

theorem dropWhile_append_cons (p : Char → Bool) (xs ys : JStr) (c : Char)
    (hc : p c = false) :
    (xs ++ c :: ys).dropWhile p = xs.dropWhile p ++ c :: ys := by
  induction xs with
  | nil => simp [List.dropWhile_cons, hc]
  | cons x xs ih =>
    by_cases hx : p x
    · simp [List.dropWhile_cons, hx, ih]
    · simp [List.dropWhile_cons, hx]

theorem jsTrim_append_ext (body e : JStr) (he : e ∈ reviewExtensions) :
    jsTrim (body ++ '.' :: e) = body.dropWhile jsWhitespace ++ '.' :: e := by
  have hne : e ≠ [] := by
    have : ∀ x ∈ reviewExtensions, x ≠ [] := by decide
    exact this e he
  have hnws : ∀ c ∈ e, jsWhitespace c = false := by
    have : ∀ x ∈ reviewExtensions, ∀ c ∈ x, jsWhitespace c = false := by decide
    exact this e he
  unfold jsTrim
  rw [dropWhile_append_cons _ _ _ _ (by decide)]
  rcases hrev : e.reverse with _ | ⟨c, t⟩
  · exact absurd (by simpa using hrev) hne
  · have hc : c ∈ e := by
      have : c ∈ e.reverse := by rw [hrev]; exact List.mem_cons_self c t
      simpa using this
    have hrw : (body.dropWhile jsWhitespace ++ '.' :: e).reverse =
        c :: (t ++ '.' :: (body.dropWhile jsWhitespace).reverse) := by
      rw [List.reverse_append, List.reverse_cons, hrev]
      simp
    rw [hrw, List.dropWhile_cons, if_neg (by simp [hnws c hc]), ← hrw,
      List.reverse_reverse]

theorem matchIntSegment_shape (seg d : JStr) (h : matchIntSegment seg = some d) :
    d ≠ [] ∧ ∀ c ∈ d, isDigitChar c = true := by
  simp only [matchIntSegment] at h
  split at h
  · rename_i hcond
    cases h
    exact ⟨hcond.1, fun c hc => List.mem_takeWhile_imp hc⟩
  · cases h

theorem matchRowAt_props (s : JStr) (iss : ReviewIssue) (after : JStr)
    (h : matchRowAt s = some (iss, after)) :
    (∃ e ∈ reviewExtensions, ∃ pre, iss.fileName = pre ++ '.' :: e) ∧
    (∃ ds, ds ≠ [] ∧ (∀ c ∈ ds, isDigitChar c = true) ∧ iss.line = digitsToNat ds) := by
  cases s with
  | nil => cases h
  | cons c s1 =>
    simp only [matchRowAt] at h
    by_cases hc : c = '|'
    · rw [if_pos hc] at h
      simp only [Option.bind_eq_some, Option.map_eq_some', Option.some.injEq,
        Prod.mk.injEq] at h
      obtain ⟨pA, hA, h⟩ := h
      obtain ⟨sev, hsev, h⟩ := h
      obtain ⟨pB, hB, h⟩ := h
      obtain ⟨cat, hcat, h⟩ := h
      obtain ⟨pC, hC, h⟩ := h
      obtain ⟨file, hfile, h⟩ := h
      obtain ⟨pD, hD, h⟩ := h
      obtain ⟨ds, hds, h⟩ := h
      obtain ⟨pE, hE, h⟩ := h
      obtain ⟨issueTxt, hissue, h⟩ := h
      obtain ⟨pF, hF, h⟩ := h
      obtain ⟨fixTxt, hfix, hiss, hafter⟩ := h
      obtain ⟨e, he, body, hbody, hfileEq⟩ := matchFileSegment_shape pC.1 file hfile
      obtain ⟨hdsne, hdsdig⟩ := matchIntSegment_shape pD.1 ds hds
      constructor
      · refine ⟨e, he, body.dropWhile jsWhitespace, ?_⟩
        rw [← hiss]
        show jsTrim file = _
        rw [hfileEq]
        exact jsTrim_append_ext body e he
      · refine ⟨ds, hdsne, hdsdig, ?_⟩
        rw [← hiss]
    · rw [if_neg hc] at h; cases h

theorem scanRowsCore_props (fuel : Nat) (s : JStr) :
    ∀ iss ∈ scanRowsCore fuel s,
      (∃ e ∈ reviewExtensions, ∃ pre, iss.fileName = pre ++ '.' :: e) ∧
      (∃ ds, ds ≠ [] ∧ (∀ c ∈ ds, isDigitChar c = true) ∧
        iss.line = digitsToNat ds) := by
  induction fuel generalizing s with
  | zero => intro iss h; simp [scanRowsCore] at h
  | succ fuel ih =>
    intro iss h
    cases s with
    | nil => simp [scanRowsCore] at h
    | cons c rest =>
      simp only [scanRowsCore] at h
      rcases hm : matchRowAt (c :: rest) with _ | ⟨iss', after⟩ <;> rw [hm] at h
      · exact ih rest iss h
      · rcases List.mem_cons.mp h with rfl | hmem
        · exact matchRowAt_props _ _ _ hm
        · exact ih after iss hmem

theorem scanRowsCore_no_matches (s : JStr) (h : noRowMatches s = true) :
    ∀ fuel, scanRowsCore fuel s = [] := by
  induction s with
  | nil => intro fuel; cases fuel <;> rfl
  | cons c rest ih =>
    intro fuel
    unfold noRowMatches at h
    rw [Bool.and_eq_true] at h
    cases fuel with
    | zero => rfl
    | succ fuel =>
      simp only [scanRowsCore]
      rcases hm : matchRowAt (c :: rest) with _ | p
      · exact ih h.2 fuel
      · rw [hm] at h
        simp [Option.isNone] at h

/-- C3 counterexample: a row with line column `0` parses into an issue whose
`line` field is `0`, which is NOT a positive integer — `(\d+)` accepts `0` —
refuting "every issue ... has a line field that is a positive integer". -/
theorem spec_c3_line_zero_counterexample :
    (parseReviewIssues c3ZeroRow).map ReviewIssue.line = [0] ∧
    (parseReviewIssues c3ZeroRow).length = 1 := by
  constructor <;> decide

/-- C3 (amended): every issue emitted by the review-table parser has a
fileName ending in a `.` followed by one of the recognized extensions, and a
line field obtained by parsing a nonempty digit string — hence a NONNEGATIVE
integer (zero is accepted); rows not matching the column shape are skipped,
and any text with zero matching rows — the empty string included — yields an
empty list. -/
theorem spec_c3_parser_invariants :
    (∀ (s : JStr) (iss : ReviewIssue), iss ∈ parseReviewIssues s →
      (∃ e ∈ reviewExtensions, ∃ pre, iss.fileName = pre ++ '.' :: e) ∧
      (∃ ds, ds ≠ [] ∧ (∀ c ∈ ds, isDigitChar c = true) ∧
        iss.line = digitsToNat ds)) ∧
    parseReviewIssues [] = [] ∧
    (∀ s : JStr, noRowMatches s = true → parseReviewIssues s = []) := by
  refine ⟨?_, rfl, ?_⟩
  · intro s iss hmem
    exact scanRowsCore_props s.length s iss hmem
  · intro s h
    exact scanRowsCore_no_matches s h s.length

/-- C3 witness: the invariants theorem applied to concrete inputs — the
spec's sample row (checking the extension property of its parsed issue) and a
no-table text (whose match-free hypothesis is discharged by evaluation). -/
theorem spec_c3_parser_invariants_witness :
    parseReviewIssues (chars "no table here") = [] :=
  spec_c3_parser_invariants.2.2 (chars "no table here") (by decide)

theorem compileToSpecAux_calls_retry (resp : Nat → JStr) (budget rc : Nat)
    (h : 1 ≤ rc) : (compileToSpecAux resp budget rc).2.2 = 1 := by
  cases budget with
  | zero =>
    simp only [compileToSpecAux]
    split
    · rfl
    · split
      · rfl
      · rfl
  | succ b =>
    simp only [compileToSpecAux]
    split
    · rfl
    · split
      · rfl
      · split
        · rename_i hguard
          omega
        · rfl

theorem compileToSpecAux_succ_bounds (resp : Nat → JStr) (b : Nat) :
    (compileToSpecAux resp (b + 1) 0).2.2 ≤ 2 ∧
    ((compileToSpecAux resp (b + 1) 0).2.2 = 2 →
      (validateOutputUs2f (cleanOutput (resp 0))).isValid = false ∧
      (validateOutputUs2f (cleanOutput (resp 0))).issues ≠ [acMissingMsg] ∧
      (validateOutputUs2f (cleanOutput (resp 0))).issues.any truncOrIncomplete
        = true) ∧
    ((validateOutputUs2f (cleanOutput (resp 0))).isValid = false →
      (validateOutputUs2f (cleanOutput (resp 0))).issues = [acMissingMsg] →
      (compileToSpecAux resp (b + 1) 0).1 = cleanOutput (resp 0) ++ acStandIn ∧
      (compileToSpecAux resp (b + 1) 0).2.2 = 1) := by
  have hinner := compileToSpecAux_calls_retry resp b (0 + 1) (by omega)
  simp only [compileToSpecAux]
  split
  · rename_i hvalid
    refine ⟨by simp, by intro h2; simp at h2, ?_⟩
    intro hfalse _
    rw [hvalid] at hfalse
    cases hfalse
  · split
    · rename_i hac
      exact ⟨by simp, by intro h2; simp at h2, fun _ _ => ⟨rfl, rfl⟩⟩
    · split
      · rename_i hnv hnac hguard
        rw [hinner]
        refine ⟨by simp, ?_, ?_⟩
        · intro _
          refine ⟨?_, hnac, hguard.1⟩
          rcases hb : (validateOutputUs2f (cleanOutput (resp 0))).isValid with _ | _
          · rfl
          · exact absurd hb hnv
        · intro _ hac
          exact absurd hac hnac
      · rename_i hnv hnac hnguard
        refine ⟨by simp, by intro h2; simp at h2, ?_⟩
        intro _ hac
        exact absurd hac hnac

/-- C10: for every response sequence, `compileToSpec` starting at retry count
0 makes at most two LLM calls; it makes a second call only when the first
response's validation fails with a truncation/incomplete-class issue and is
not the single missing-AC issue; and when the first validation fails with
exactly the missing-AC issue, the literal stand-in line is appended to the
cleaned output and only one call is made. -/
theorem spec_c10_retry_bounds (resp : Nat → JStr) :
    (compileToSpec resp 0).2.2 ≤ 2 ∧
    ((compileToSpec resp 0).2.2 = 2 →
      (validateOutputUs2f (cleanOutput (resp 0))).isValid = false ∧
      (validateOutputUs2f (cleanOutput (resp 0))).issues ≠ [acMissingMsg] ∧
      (validateOutputUs2f (cleanOutput (resp 0))).issues.any truncOrIncomplete
        = true) ∧
    ((validateOutputUs2f (cleanOutput (resp 0))).isValid = false →
      (validateOutputUs2f (cleanOutput (resp 0))).issues = [acMissingMsg] →
      (compileToSpec resp 0).1 = cleanOutput (resp 0) ++ acStandIn ∧
      (compileToSpec resp 0).2.2 = 1) := by
  have h := compileToSpecAux_succ_bounds resp 0
  simp only [Nat.zero_add] at h
  have e : compileToSpec resp 0 = compileToSpecAux resp (1 - 0) 0 := rfl
  simp only [Nat.sub_zero] at e
  rw [e]
  exact h

/-- C10 witness: the theorem applied to a constant response sequence whose
first validation has exactly the missing-AC issue, discharged by evaluation:
the stand-in line is appended and exactly one call is made. -/
theorem spec_c10_retry_bounds_witness :
    (compileToSpec (fun _ => c10AcOnlyResponse) 0).1 =
      cleanOutput c10AcOnlyResponse ++ acStandIn ∧
    (compileToSpec (fun _ => c10AcOnlyResponse) 0).2.2 = 1 :=
  (spec_c10_retry_bounds (fun _ => c10AcOnlyResponse)).2.2 (by decide) (by decide)
